import Mathlib

/-!
Verification of the module graph builder and dependency resolver of
`angular-bundler` (`src/modulesBuilder.js`) against its specification.

The JavaScript object `ModulesStructure` (a string-keyed object mapping
module names to `ModuleConfig` records) is embedded as an association list
with insertion-ordered keys: `modules[name]` is `objGet`, the assignment
`modules[name] = v` is `objSet` (update in place if present, append if new —
exactly the key-ordering behaviour of a JS object), and `Object.keys` is
`keys`.  The two unbounded recursions of the source (`doFind` inside
`findCircularReference` and `doResolve` inside `resolveDependencies`) are
given an explicit fuel parameter; a dedicated lemma shows the fuel
`(keys g).length + 1` used by the top-level entry points is never exhausted,
so the fuel is invisible in the exported behaviour.
-/

namespace AngularBundler

/-- `ProviderConfig` of src/modulesBuilder.js: provider name plus the names
it injects (the array constructor minus its last element). -/
structure ProviderConfig where
  name : String
  injects : List String
deriving DecidableEq

/-- `ModuleConfig` of src/modulesBuilder.js. -/
structure ModuleConfig where
  dependencies : List String
  files : List String
  size : Nat
  providers : List ProviderConfig
deriving DecidableEq

/-- `new ModuleConfig()`. -/
def ModuleConfig.new : ModuleConfig :=
  { dependencies := [], files := [], size := 0, providers := [] }

/-- A JS string-keyed object, as an insertion-ordered association list. -/
abbrev Obj (β : Type) := List (String × β)

/-- `ModulesStructure`: module name to `ModuleConfig`. -/
abbrev Graph := Obj ModuleConfig

/-- `obj[k]` (read): first binding wins; JS objects never hold duplicate
keys, so this is exact. -/
def objGet {β : Type} (g : Obj β) (k : String) : Option β :=
  match g with
  | [] => none
  | (k', v) :: rest => if k' = k then some v else objGet rest k

/-- `obj[k] = v` (write): replaces the value in place when the key exists,
appends a new binding otherwise — the key-enumeration order of JS objects. -/
def objSet {β : Type} (g : Obj β) (k : String) (v : β) : Obj β :=
  match g with
  | [] => [(k, v)]
  | (k', v') :: rest => if k' = k then (k, v) :: rest else (k', v') :: objSet rest k v

/-- `Object.keys`. -/
def keys {β : Type} (g : Obj β) : List String := g.map Prod.fst

/-! ### The sandbox (`buildAngularModuleSandbox`, lines 228–336) -/

/-- The sandbox closure state: the accumulated structure and the
`currentModuleName` variable. -/
structure Sandbox where
  modules : Graph
  currentModuleName : Option String
deriving DecidableEq

/-- `sandbox.angular.module(name, dependencies)` (lines 233–253) executed for
the file `fileName` of size `fileSize`; `dependencies = none` models a call
without a dependency-list argument (a bare reference).  `if (dependencies)`
is array truthiness: present means truthy, even for `[]`. -/
def angularModule (sb : Sandbox) (name : String) (dependencies : Option (List String))
    (fileName : String) (fileSize : Nat) : Sandbox :=
  let module := (objGet sb.modules name).getD ModuleConfig.new
  let module := match dependencies with
    | some ds => { module with dependencies := ds }
    | none => module
  let module :=
    if fileName ∈ module.files then module
    else { module with
            files := if dependencies.isSome then fileName :: module.files
                     else module.files ++ [fileName],
            size := module.size + fileSize }
  { modules := objSet sb.modules name module, currentModuleName := some name }

/-- The constructor argument passed to a provider-like registration:
the minify-ready array form `[...injects, fn]`, a zero-argument function,
or anything else (not minify-ready). -/
inductive Ctor where
  | arrayForm (injects : List String)
  | zeroArgFn
  | notMinifyReady
deriving DecidableEq

/-- `validateConstructor(name, constructor)` (lines 311–335): records a
`ProviderConfig` under the current module unless the constructor is not
minify-ready, no module was declared yet, or the name is a duplicate within
the module.  (The `console.error` diagnostics are side effects only.) -/
def validateConstructor (sb : Sandbox) (name : String) (ctor : Ctor) : Sandbox :=
  match ctor with
  | .notMinifyReady => sb
  | _ =>
    match sb.currentModuleName with
    | none => sb
    | some current =>
      match objGet sb.modules current with
      | none => sb  -- unreachable: currentModuleName is always an existing key
      | some module =>
        if module.providers.any (fun p => p.name = name) then sb
        else
          let injects := match ctor with
            | .arrayForm injs => injs
            | _ => []
          let module := { module with providers := module.providers ++ [⟨name, injects⟩] }
          { sb with modules := objSet sb.modules current module }

/-! ### File scanning (`buildModulesStructure`, lines 23–50) -/

/-- One recognized top-level action performed while a source file executes in
the sandbox: an `angular.module` call, a provider-like registration call
(`factory`/`service`/`controller`/`directive`), or the point at which the
script throws. -/
inductive Step where
  | moduleCall (name : String) (dependencies : Option (List String))
  | providerCall (name : String) (ctor : Ctor)
  | throwErr
deriving DecidableEq

/-- One scanned `.js` file: its mapped path, its size in KB
(`Math.ceil(size/1024)`), and the actions its execution performs in order. -/
structure SourceFile where
  path : String
  sizeKB : Nat
  script : List Step
deriving DecidableEq

/-- `vm.runInContext(file, angularModuleSandbox)`: the script's actions are
applied in order; a `throwErr` aborts the rest of the script.  The exception
is caught by the (empty) catch at lines 43–45, so the state reached so far is
simply returned. -/
def runScript (sb : Sandbox) (fileName : String) (fileSize : Nat) : List Step → Sandbox
  | [] => sb
  | .moduleCall n d :: rest => runScript (angularModule sb n d fileName fileSize) fileName fileSize rest
  | .providerCall n c :: rest => runScript (validateConstructor sb n c) fileName fileSize rest
  | .throwErr :: _ => sb

/-- The `filenames.forEach` loop over all enumerated files. -/
def buildGo (sb : Sandbox) : List SourceFile → Sandbox
  | [] => sb
  | f :: fs => buildGo (runScript sb f.path f.sizeKB f.script) fs

/-- `buildModulesStructure(dirs, filePathMapper)` with the filesystem
abstracted away: `files` is the list of js files found under the given
directories, in scan order, with paths already put through the mapper. -/
def buildModulesStructure (files : List SourceFile) : Graph :=
  (buildGo ⟨[], none⟩ files).modules

/-! ### `validateInjects` (lines 84–115) -/

/-- The `moduleByProvider` index (lines 85–91): for each module in key order,
each of its providers writes its owning module name — last writer wins. -/
def moduleByProvider (g : Graph) : Obj String :=
  (keys g).foldl
    (fun prev moduleName =>
      match objGet g moduleName with
      | none => prev  -- unreachable: moduleName ranges over the keys of g
      | some m => m.providers.foldl (fun prev p => objSet prev p.name moduleName) prev)
    []

/-- The diagnostic string pushed at lines 107–108. -/
def errString (moduleName providerName inject dep : String) : String :=
  "Module " ++ moduleName ++ " have provider " ++ providerName ++ " which injects " ++
    inject ++ " defined in " ++ dep ++ ", but module " ++ moduleName ++
    " do not depends on module " ++ dep ++ " explicitly"

/-- The `provider.injects.forEach` loop (lines 99–110) for one provider,
collecting each pushed diagnostic as the structured tuple
(module, provider, inject, owning module).  `moduleDependency && …` is JS
string truthiness: the looked-up owner must exist and be nonempty. -/
def injectErrors (idx : Obj String) (moduleName : String) (deps : List String)
    (providerName : String) : List String → List (String × String × String × String)
  | [] => []
  | inject :: rest =>
    let tail := injectErrors idx moduleName deps providerName rest
    match objGet idx inject with
    | none => tail
    | some moduleDependency =>
      if moduleDependency ≠ "" ∧ moduleDependency ≠ moduleName ∧ moduleDependency ∉ deps
      then (moduleName, providerName, inject, moduleDependency) :: tail
      else tail

/-- The `module.providers.forEach` loop (lines 98–111). -/
def providerLoop (idx : Obj String) (moduleName : String) (deps : List String) :
    List ProviderConfig → List (String × String × String × String)
  | [] => []
  | p :: ps =>
    injectErrors idx moduleName deps p.name p.injects ++ providerLoop idx moduleName deps ps

/-- The outer `Object.keys(modules).forEach` loop (lines 95–112), producing
the structured form of every pushed diagnostic in push order. -/
def validateInjectsCore (g : Graph) (idx : Obj String) : List String →
    List (String × String × String × String)
  | [] => []
  | moduleName :: rest =>
    (match objGet g moduleName with
     | none => []  -- unreachable: moduleName ranges over the keys of g
     | some m => providerLoop idx moduleName m.dependencies m.providers) ++
      validateInjectsCore g idx rest

/-- `validateInjects(modules)`: the error strings, in push order. -/
def validateInjects (g : Graph) : List String :=
  (validateInjectsCore g (moduleByProvider g) (keys g)).map
    (fun e => errString e.1 e.2.1 e.2.2.1 e.2.2.2)

/-! ### `findCircularReference` (lines 148–186) -/

/-- Outcome of `doFind`: returned normally, threw the `CRef` sentinel with a
trail, or (embedding artifact) ran out of fuel. -/
inductive FindRes where
  | ok
  | cycleFound (trail : List String)
  | outOfFuel
deriving DecidableEq

/-- The `deps.forEach` loop (lines 174–178): recurse (via `next`, the DFS at
the remaining fuel) into each dependency that exists in the graph; a thrown
`CRef` (or exhausted fuel) aborts the iteration and propagates. -/
def doFindDeps (g : Graph) (next : String → List String → FindRes) :
    List String → List String → FindRes
  | [], _ => .ok
  | dep :: rest, trail =>
    if (objGet g dep).isSome then
      match next dep trail with
      | .ok => doFindDeps g next rest trail
      | r => r
    else doFindDeps g next rest trail

/-- `doFind(module, trail)` (lines 167–181), with fuel.  The source recurses
unboundedly; `searchFuel` below always suffices (`claim_C9`). -/
def doFind (g : Graph) : Nat → String → List String → FindRes
  | 0, _, _ => .outOfFuel
  | fuel + 1, module, trail =>
    if module ∈ trail then .cycleFound (trail ++ [module])
    else
      match objGet g module with
      | none => .ok  -- unreachable: doFind is only invoked on names present in g
      | some m => doFindDeps g (doFind g fuel) m.dependencies (trail ++ [module])

/-- Fuel that always suffices for the DFS: the trail-membership check keeps
every trail a duplicate-free list of keys of `g`, bounding the recursion
depth by the number of modules. -/
def searchFuel (g : Graph) : Nat := (keys g).length + 1

/-- The `for` loop of lines 151–161: DFS from every module name in key
order; the first trail thrown is returned. -/
def findCRLoop (g : Graph) : List String → Option (List String)
  | [] => none
  | k :: rest =>
    match doFind g (searchFuel g) k [] with
    | .cycleFound t => some t
    | _ => findCRLoop g rest

/-- `findCircularReference(modules)`: the returned trail, or `none` when the
loop completes (the source falls through, returning `undefined`). -/
def findCircularReference (g : Graph) : Option (List String) :=
  findCRLoop g (keys g)

/-! ### `resolveDependencies` (lines 123–142) -/

/-- The dedup filter at lines 138–140:
`filter(function dropDuplicates(element, index, array) {
  return index === array.indexOf(element) })`
keeps exactly the first occurrence of each element; `seen` accumulates the
elements already kept. -/
def dropDupSeen (seen : List String) : List String → List String
  | [] => []
  | x :: xs => if x ∈ seen then dropDupSeen seen xs else x :: dropDupSeen (x :: seen) xs

/-- First-occurrence deduplication. -/
def dropDuplicates (l : List String) : List String := dropDupSeen [] l

/-- The `deps.reduce` at lines 131–138: for each dependency present in the
graph, append the recursive resolution (via `next`, `doResolve` at the
remaining fuel) of its dependencies and then the dependency itself. -/
def doResolveGo (g : Graph) (next : List String → Option (List String)) :
    List String → Option (List String)
  | [] => some []
  | dep :: rest =>
    match objGet g dep with
    | none => doResolveGo g next rest
    | some m =>
      match next m.dependencies, doResolveGo g next rest with
      | some sub, some tail => some (sub ++ dep :: tail)
      | _, _ => none

/-- `doResolve(deps)` (lines 130–141), with fuel: the recursion is unbounded
in the source and is invoked only on acyclic graphs, where `searchFuel`
suffices (`doResolve_fuel`).  `none` is fuel exhaustion. -/
def doResolve (g : Graph) : Nat → List String → Option (List String)
  | 0, _ => none
  | fuel + 1, deps => (doResolveGo g (doResolve g fuel) deps).map dropDuplicates

/-- The message of the `Error` thrown at line 125. -/
def circularErr : String := "Can not build dependency tree - found circular dependency"

/-- `resolveDependencies(moduleName, modules)` (lines 123–142): fail fast on
a detected cycle, otherwise `doResolve([moduleName])`. -/
def resolveDependencies (moduleName : String) (g : Graph) : Except String (List String) :=
  match findCircularReference g with
  | some _ => .error circularErr
  | none =>
    match doResolve g (searchFuel g) [moduleName] with
    | some r => .ok r
    | none => .ok []  -- unreachable: on acyclic graphs the fuel never runs out

/-! ### The dependency relation of a graph -/

/-- `a` depends on `b` with both modules present in the graph — the edges
both traversals actually follow (dangling dependency names are skipped). -/
def Edge (g : Graph) (a b : String) : Prop :=
  ∃ m, objGet g a = some m ∧ b ∈ m.dependencies ∧ (objGet g b).isSome

/-- No module lies on a nonempty `Edge`-cycle. -/
def Acyclic (g : Graph) : Prop := ∀ a, ¬ Relation.TransGen (Edge g) a a

/-! ## Basic lemmas about the object embedding -/

theorem objGet_objSet_self {β : Type} (g : Obj β) (k : String) (v : β) :
    objGet (objSet g k v) k = some v := by
  induction g with
  | nil => simp [objSet, objGet]
  | cons hd rest ih =>
    obtain ⟨k', v'⟩ := hd
    by_cases h : k' = k
    · simp [objSet, objGet, h]
    · simp [objSet, objGet, h, ih]

theorem objGet_objSet_ne {β : Type} (g : Obj β) (k k' : String) (v : β) (h : k' ≠ k) :
    objGet (objSet g k v) k' = objGet g k' := by
  induction g with
  | nil => simp [objSet, objGet, Ne.symm h]
  | cons hd rest ih =>
    obtain ⟨k₀, v₀⟩ := hd
    by_cases h₀ : k₀ = k
    · subst h₀
      simp [objSet, objGet, Ne.symm h]
    · simp only [objSet, if_neg h₀, objGet]
      by_cases h₁ : k₀ = k'
      · simp [h₁]
      · simp [h₁, ih]

theorem objSet_of_objGet_none {β : Type} (g : Obj β) (k : String) (v : β)
    (h : objGet g k = none) : objSet g k v = g ++ [(k, v)] := by
  induction g with
  | nil => simp [objSet]
  | cons hd rest ih =>
    obtain ⟨k₀, v₀⟩ := hd
    by_cases h₀ : k₀ = k
    · simp [objGet, h₀] at h
    · simp only [objGet, if_neg h₀] at h
      simp [objSet, h₀, ih h]

theorem objGet_isSome_iff_mem_keys {β : Type} (g : Obj β) (k : String) :
    (objGet g k).isSome ↔ k ∈ keys g := by
  induction g with
  | nil => simp [objGet, keys]
  | cons hd rest ih =>
    obtain ⟨k₀, v₀⟩ := hd
    by_cases h₀ : k₀ = k
    · subst h₀
      simp [objGet, keys]
    · simp [objGet, keys, h₀, ih, Ne.symm h₀]

theorem objGet_mem_keys {β : Type} {g : Obj β} {k : String} {v : β}
    (h : objGet g k = some v) : k ∈ keys g :=
  (objGet_isSome_iff_mem_keys g k).mp (by simp [h])

/-! ## Claim C5 — error swallowing in `buildModulesStructure` -/

/-- A file whose execution throws after declaring module `X`: the events up
to the throw persist in the structure, refuting "the graph state is the same
as if the file had not been processed". -/
def failingFile : SourceFile :=
  ⟨"x.js", 1, [.moduleCall "X" (some []), .throwErr, .moduleCall "Y" (some [])]⟩

/-- C5 counterexample: processing `failingFile` (whose execution throws)
leaves module `X` in the graph, so the file does contribute events; the
graph is not the one obtained by skipping the file. -/
theorem claim_C5_counterexample :
    buildModulesStructure [failingFile] =
      [("X", { dependencies := [], files := ["x.js"], size := 1, providers := [] })] ∧
    buildModulesStructure [failingFile] ≠ buildModulesStructure [] := by
  constructor
  · rfl
  · decide

theorem runScript_append_throw (f : String) (s : Nat) (post : List Step) :
    ∀ (pre : List Step) (sb : Sandbox), Step.throwErr ∉ pre →
      runScript sb f s (pre ++ Step.throwErr :: post) = runScript sb f s pre := by
  intro pre
  induction pre with
  | nil => intro sb _; rfl
  | cons st rest ih =>
    intro sb hmem
    have hne : st ≠ Step.throwErr := fun h => hmem (h ▸ List.mem_cons_self st rest)
    have hrest : Step.throwErr ∉ rest := fun h => hmem (List.mem_cons_of_mem st h)
    cases st with
    | moduleCall n d => simpa [runScript] using ih _ hrest
    | providerCall n c => simpa [runScript] using ih _ hrest
    | throwErr => exact absurd rfl hne

/-- C5 amended: when a file's execution throws, the exception is swallowed
and the scan continues with the remaining files, but the events the file
performed before the throw persist (everything after the throw is
discarded); only a file that throws before its first event leaves the graph
untouched. -/
theorem claim_C5_amended (sb : Sandbox) (f : String) (s : Nat)
    (pre post : List Step) (fs : List SourceFile) (h : Step.throwErr ∉ pre) :
    buildGo sb (⟨f, s, pre ++ Step.throwErr :: post⟩ :: fs) =
      buildGo (runScript sb f s pre) fs := by
  show buildGo (runScript sb f s (pre ++ Step.throwErr :: post)) fs = _
  rw [runScript_append_throw f s post pre sb h]

/-- C5 witness: the amended theorem at the concrete failing file. -/
theorem claim_C5_witness :
    buildGo ⟨[], none⟩ [failingFile] =
      buildGo (runScript ⟨[], none⟩ "x.js" 1 [.moduleCall "X" (some [])]) [] :=
  claim_C5_amended ⟨[], none⟩ "x.js" 1 [.moduleCall "X" (some [])]
    [.moduleCall "Y" (some [])] [] (by decide)

/-! ## Claim C6 — re-declaration of an existing module -/

/-- C6 counterexample: module `M` is first referenced from `f1`, then
referenced and re-declared (with dependency list `["A"]`) from `f2`.  The
re-declaration replaces the dependency list but leaves the file list
`["f1","f2"]` as is: the declaring file `f2` is not placed first. -/
theorem claim_C6_counterexample :
    (objGet (angularModule (angularModule (angularModule ⟨[], none⟩ "M" none "f1" 1)
        "M" none "f2" 1) "M" (some ["A"]) "f2" 1).modules "M" =
      some { dependencies := ["A"], files := ["f1", "f2"], size := 2, providers := [] }) ∧
    (["f1", "f2"] : List String).head? ≠ some "f2" := by
  constructor
  · rfl
  · decide

/-- C6 amended: applying a module-declaration event (dependency list
present) to a module already in the graph replaces exactly its dependency
list and leaves its providers unchanged; the file list and size are
unchanged when the declaring file is already in the file list (even when it
is not in first position), and otherwise the declaring file is prepended
and the file's size added; every other module is untouched. -/
theorem claim_C6_amended (g : Graph) (cur : Option String) (M : String)
    (ds : List String) (f : String) (s : Nat) (cfg : ModuleConfig)
    (h : objGet g M = some cfg) :
    objGet (angularModule ⟨g, cur⟩ M (some ds) f s).modules M =
      some { dependencies := ds,
             files := if f ∈ cfg.files then cfg.files else f :: cfg.files,
             size := if f ∈ cfg.files then cfg.size else cfg.size + s,
             providers := cfg.providers } ∧
    ∀ N, N ≠ M → objGet (angularModule ⟨g, cur⟩ M (some ds) f s).modules N = objGet g N := by
  constructor
  · by_cases hf : f ∈ cfg.files
    · simp [angularModule, h, hf, objGet_objSet_self]
    · simp [angularModule, h, hf, objGet_objSet_self]
  · intro N hN
    by_cases hf : f ∈ cfg.files
    · simp only [angularModule, h, Option.getD_some]
      exact objGet_objSet_ne _ _ _ _ hN
    · simp only [angularModule, h, Option.getD_some]
      exact objGet_objSet_ne _ _ _ _ hN

/-- C6 witness: the amended theorem at a concrete graph where the declaring
file is new (it is prepended and counted). -/
theorem claim_C6_witness :
    objGet (angularModule ⟨[("M", ⟨[], ["f1"], 1, []⟩)], none⟩ "M"
        (some ["A"]) "f2" 3).modules "M" = some ⟨["A"], ["f2", "f1"], 4, []⟩ := by
  have h := claim_C6_amended [("M", ⟨[], ["f1"], 1, []⟩)] none "M" ["A"] "f2" 3
    ⟨[], ["f1"], 1, []⟩ rfl
  simpa using h.1

/-! ## Claim C7 — idempotence of adding the same file to the same module -/

/-- A module event whose file is not yet in the module's file list writes a
module value holding the file exactly once and the size increased by the
file's size. -/
theorem angularModule_new_file (sb : Sandbox) (M : String) (d : Option (List String))
    (f : String) (s : Nat) (hf : f ∉ ((objGet sb.modules M).getD ModuleConfig.new).files) :
    ∃ cfg, (angularModule sb M d f s).modules = objSet sb.modules M cfg ∧
      f ∈ cfg.files ∧ cfg.files.count f = 1 ∧
      cfg.size = ((objGet sb.modules M).getD ModuleConfig.new).size + s := by
  have hcount : ((objGet sb.modules M).getD ModuleConfig.new).files.count f = 0 :=
    List.count_eq_zero.mpr hf
  cases d with
  | none =>
    refine ⟨{ (objGet sb.modules M).getD ModuleConfig.new with
        files := ((objGet sb.modules M).getD ModuleConfig.new).files ++ [f],
        size := ((objGet sb.modules M).getD ModuleConfig.new).size + s },
      by simp [angularModule, hf], ?_, ?_, rfl⟩
    · simp
    · simp [hcount]
  | some ds =>
    refine ⟨{ (objGet sb.modules M).getD ModuleConfig.new with
        dependencies := ds,
        files := f :: ((objGet sb.modules M).getD ModuleConfig.new).files,
        size := ((objGet sb.modules M).getD ModuleConfig.new).size + s },
      by simp [angularModule, hf], ?_, ?_, rfl⟩
    · simp
    · simp [List.count_cons, hcount]

/-- A module event whose file is already in the module's file list leaves
the file list and the size untouched (only the dependency list may be
replaced). -/
theorem angularModule_old_file (sb : Sandbox) (M : String) (d : Option (List String))
    (f : String) (s : Nat) (cfg : ModuleConfig) (hcfg : objGet sb.modules M = some cfg)
    (hf : f ∈ cfg.files) :
    ∃ cfg', (angularModule sb M d f s).modules = objSet sb.modules M cfg' ∧
      cfg'.files = cfg.files ∧ cfg'.size = cfg.size ∧ cfg'.providers = cfg.providers := by
  cases d with
  | none => exact ⟨cfg, by simp [angularModule, hcfg, hf], rfl, rfl, rfl⟩
  | some ds =>
    refine ⟨{ cfg with dependencies := ds }, by simp [angularModule, hcfg, hf], rfl, rfl, rfl⟩

/-- C7: processing two module events for the same (file, module) pair —
whatever the two dependency-list arguments are — leaves the file exactly
once in the module's file list and counts its size exactly once. -/
theorem claim_C7 (g : Graph) (cur : Option String) (M : String)
    (d₁ d₂ : Option (List String)) (f : String) (s : Nat)
    (hf : f ∉ ((objGet g M).getD ModuleConfig.new).files) :
    (((objGet (angularModule (angularModule ⟨g, cur⟩ M d₁ f s) M d₂ f s).modules M).getD
        ModuleConfig.new).files.count f = 1) ∧
    ((objGet (angularModule (angularModule ⟨g, cur⟩ M d₁ f s) M d₂ f s).modules M).getD
        ModuleConfig.new).size = ((objGet g M).getD ModuleConfig.new).size + s := by
  obtain ⟨cfg₁, h₁, hmem₁, hcount₁, hsize₁⟩ :=
    angularModule_new_file ⟨g, cur⟩ M d₁ f s hf
  have hget₁ : objGet (angularModule ⟨g, cur⟩ M d₁ f s).modules M = some cfg₁ := by
    rw [h₁]; exact objGet_objSet_self g M cfg₁
  obtain ⟨cfg₂, h₂, hfiles₂, hsize₂, _⟩ :=
    angularModule_old_file (angularModule ⟨g, cur⟩ M d₁ f s) M d₂ f s cfg₁ hget₁ hmem₁
  have hget₂ : objGet (angularModule (angularModule ⟨g, cur⟩ M d₁ f s) M d₂ f s).modules M =
      some cfg₂ := by
    rw [h₂]; exact objGet_objSet_self _ M cfg₂
  rw [hget₂, Option.getD_some, hfiles₂, hsize₂, hsize₁]
  exact ⟨hcount₁, rfl⟩

/-- C7 witness: the idempotence theorem at a concrete graph and event. -/
theorem claim_C7_witness :
    (((objGet (angularModule (angularModule ⟨[], none⟩ "M" (some []) "a.js" 2) "M"
        (some []) "a.js" 2).modules "M").getD ModuleConfig.new).files.count "a.js" = 1) ∧
    ((objGet (angularModule (angularModule ⟨[], none⟩ "M" (some []) "a.js" 2) "M"
        (some []) "a.js" 2).modules "M").getD ModuleConfig.new).size =
      ((objGet ([] : Graph) "M").getD ModuleConfig.new).size + 2 :=
  claim_C7 [] none "M" (some []) (some []) "a.js" 2 (by decide)

/-! ## Claim C10 — a bare module reference materializes a module entry -/

/-- C10: an `angular.module(name)` call without a dependency list, for a
name not yet in the graph, creates a fresh entry: empty dependency list, the
calling file as its only file (appended, hence also first), the file's size
counted, and no providers.  The new name is appended to the key list, so the
entry takes part in everything that iterates the keys (resolution, cycle
detection, the DOT export), and it becomes the current module. -/
theorem claim_C10 (g : Graph) (cur : Option String) (M f : String) (s : Nat)
    (h : objGet g M = none) :
    objGet (angularModule ⟨g, cur⟩ M none f s).modules M =
      some { dependencies := [], files := [f], size := s, providers := [] } ∧
    keys (angularModule ⟨g, cur⟩ M none f s).modules = keys g ++ [M] ∧
    (angularModule ⟨g, cur⟩ M none f s).currentModuleName = some M := by
  have hmods : (angularModule ⟨g, cur⟩ M none f s).modules =
      objSet g M { dependencies := [], files := [f], size := s, providers := [] } := by
    simp [angularModule, h, ModuleConfig.new]
  refine ⟨?_, ?_, rfl⟩
  · rw [hmods]; exact objGet_objSet_self g M _
  · rw [hmods, objSet_of_objGet_none g M _ h]
    simp [keys]

/-- C10 witness: the theorem at a concrete graph that does not contain the
referenced name. -/
theorem claim_C10_witness :
    objGet (angularModule ⟨[("A", ⟨[], [], 0, []⟩)], none⟩ "M" none "m.js" 7).modules "M" =
      some { dependencies := [], files := ["m.js"], size := 7, providers := [] } ∧
    keys (angularModule ⟨[("A", ⟨[], [], 0, []⟩)], none⟩ "M" none "m.js" 7).modules =
      keys [("A", (⟨[], [], 0, []⟩ : ModuleConfig))] ++ ["M"] ∧
    (angularModule ⟨[("A", ⟨[], [], 0, []⟩)], none⟩ "M" none "m.js" 7).currentModuleName =
      some "M" :=
  claim_C10 [("A", ⟨[], [], 0, []⟩)] none "M" "m.js" 7 rfl

/-! ## Generic list lemmas -/

theorem nodup_subset_length {l₁ l₂ : List String} (h₁ : l₁.Nodup) (h₂ : l₁ ⊆ l₂) :
    l₁.length ≤ l₂.length := by
  have h3 : l₁.toFinset.card = l₁.length := List.toFinset_card_of_nodup h₁
  have h4 : l₁.toFinset ⊆ l₂.toFinset := by
    intro x hx
    simp only [List.mem_toFinset] at hx ⊢
    exact h₂ hx
  have h5 := Finset.card_le_card h4
  have h6 : l₂.toFinset.card ≤ l₂.length := l₂.toFinset_card_le
  omega

theorem chain_append_transGen {R : String → String → Prop} :
    ∀ (v : List String) (a b : String), List.Chain R a (v ++ [b]) → Relation.TransGen R a b
  | [], _, _, h => by
    cases h with
    | cons hr _ => exact Relation.TransGen.single hr
  | c :: v, a, b, h => by
    cases h with
    | cons hr hrest => exact Relation.TransGen.head hr (chain_append_transGen v c b hrest)

theorem chain'_concat_cycle {R : String → String → Prop} {l : List String} {x : String}
    (hc : List.Chain' R (l ++ [x])) (hx : x ∈ l) : Relation.TransGen R x x := by
  obtain ⟨u, v, rfl⟩ := List.append_of_mem hx
  have hc' : List.Chain' R (u ++ (x :: (v ++ [x]))) := by
    simpa using hc
  have h2 : List.Chain' R (x :: (v ++ [x])) := (List.chain'_append.mp hc').2.1
  exact chain_append_transGen v x x h2

/-! ## Termination of the DFS (fuel sufficiency) -/

theorem doFind_fuel (g : Graph) :
    ∀ (fuel : Nat) (m : String) (trail : List String), trail.Nodup →
      (∀ x ∈ trail, x ∈ keys g) → (keys g).length + 1 ≤ fuel + trail.length →
      doFind g fuel m trail ≠ .outOfFuel := by
  intro fuel
  induction fuel with
  | zero =>
    intro m trail hnd hsub hb
    exfalso
    have := nodup_subset_length hnd hsub
    omega
  | succ fuel ih =>
    have hdeps : ∀ (ds trail' : List String), trail'.Nodup → (∀ x ∈ trail', x ∈ keys g) →
        (keys g).length + 1 ≤ fuel + trail'.length →
        doFindDeps g (doFind g fuel) ds trail' ≠ .outOfFuel := by
      intro ds
      induction ds with
      | nil =>
        intro trail' _ _ _
        simp [doFindDeps]
      | cons d rest ihds =>
        intro trail' hnd hsub hb
        by_cases hd : (objGet g d).isSome
        · simp only [doFindDeps, if_pos hd]
          cases hdf : doFind g fuel d trail' with
          | ok => exact ihds trail' hnd hsub hb
          | cycleFound t => simp
          | outOfFuel => exact absurd hdf (ih d trail' hnd hsub hb)
        · simp only [doFindDeps, if_neg hd]
          exact ihds trail' hnd hsub hb
    intro m trail hnd hsub hb
    by_cases hm : m ∈ trail
    · simp [doFind, hm]
    · cases hg : objGet g m with
      | none => simp [doFind, hm, hg]
      | some cfg =>
        simp only [doFind, if_neg hm, hg]
        apply hdeps cfg.dependencies (trail ++ [m])
        · simp only [List.nodup_append, List.nodup_singleton]
          exact ⟨hnd, trivial, by simpa using hm⟩
        · intro x hx
          rcases List.mem_append.mp hx with h | h
          · exact hsub x h
          · have : x = m := by simpa using h
            subst this
            exact objGet_mem_keys hg
        · simp only [List.length_append, List.length_singleton]
          omega

/-! ## Soundness of the DFS: a returned trail is an edge-walk ending in a
revisit -/

theorem doFindDeps_ok (g : Graph) (next : String → List String → FindRes) :
    ∀ (ds trail : List String), doFindDeps g next ds trail = .ok →
      ∀ d ∈ ds, (objGet g d).isSome → next d trail = .ok := by
  intro ds
  induction ds with
  | nil => intro trail _ d hd; simp at hd
  | cons d rest ih =>
    intro trail h d' hd' hsome
    by_cases hd : (objGet g d).isSome
    · simp only [doFindDeps, if_pos hd] at h
      cases hdf : next d trail with
      | ok =>
        rw [hdf] at h
        rcases List.mem_cons.mp hd' with rfl | hmem
        · exact hdf
        · exact ih trail h d' hmem hsome
      | cycleFound t => rw [hdf] at h; simp at h
      | outOfFuel => rw [hdf] at h; simp at h
    · simp only [doFindDeps, if_neg hd] at h
      rcases List.mem_cons.mp hd' with rfl | hmem
      · exact absurd hsome hd
      · exact ih trail h d' hmem hsome

theorem doFind_cycle_sound (g : Graph) :
    ∀ (fuel : Nat) (m : String) (trail t : List String),
      List.Chain' (Edge g) (trail ++ [m]) → doFind g fuel m trail = .cycleFound t →
      List.Chain' (Edge g) t ∧ ∃ l x, t = l ++ [x] ∧ x ∈ l := by
  intro fuel
  induction fuel with
  | zero => intro m trail t _ h; simp [doFind] at h
  | succ fuel ih =>
    have hdeps : ∀ (ds trail' t : List String), List.Chain' (Edge g) trail' →
        (∀ d ∈ ds, (objGet g d).isSome → ∀ x ∈ trail'.getLast?, Edge g x d) →
        doFindDeps g (doFind g fuel) ds trail' = .cycleFound t →
        List.Chain' (Edge g) t ∧ ∃ l x, t = l ++ [x] ∧ x ∈ l := by
      intro ds
      induction ds with
      | nil => intro trail' t _ _ h; simp [doFindDeps] at h
      | cons d rest ihds =>
        intro trail' t hch hedge h
        by_cases hd : (objGet g d).isSome
        · simp only [doFindDeps, if_pos hd] at h
          cases hdf : doFind g fuel d trail' with
          | ok =>
            rw [hdf] at h
            exact ihds trail' t hch (fun d' hd' => hedge d' (List.mem_cons_of_mem d hd')) h
          | cycleFound t' =>
            rw [hdf] at h
            have ht : t' = t := by simpa using h
            subst ht
            have hch' : List.Chain' (Edge g) (trail' ++ [d]) := by
              rw [List.chain'_append]
              refine ⟨hch, List.chain'_singleton d, ?_⟩
              intro x hx y hy
              have hyd : d = y := by simpa using hy
              subst hyd
              exact hedge d (List.mem_cons_self d rest) hd x hx
            exact ih d trail' t' hch' hdf
          | outOfFuel => rw [hdf] at h; simp at h
        · simp only [doFindDeps, if_neg hd] at h
          exact ihds trail' t hch (fun d' hd' => hedge d' (List.mem_cons_of_mem d hd')) h
    intro m trail t hc h
    by_cases hm : m ∈ trail
    · simp only [doFind, if_pos hm] at h
      have ht : trail ++ [m] = t := by simpa using h
      subst ht
      exact ⟨hc, trail, m, rfl, hm⟩
    · cases hg : objGet g m with
      | none => simp [doFind, hm, hg] at h
      | some cfg =>
        simp only [doFind, if_neg hm, hg] at h
        apply hdeps cfg.dependencies (trail ++ [m]) t hc ?_ h
        intro d hd hdsome x hx
        have hxm : m = x := by
          rw [List.getLast?_concat] at hx
          simpa using hx
        subst hxm
        exact ⟨cfg, hg, hd, hdsome⟩

/-! ## Completeness of the DFS: a cycle reachable along the trail forces a
non-ok result -/

theorem doFind_reach_not_ok (g : Graph) :
    ∀ (fuel : Nat) (m : String) (trail : List String) (z : String),
      Relation.TransGen (Edge g) m z → z ∈ trail ++ [m] →
      doFind g fuel m trail ≠ .ok := by
  intro fuel
  induction fuel with
  | zero => intro m trail z _ _; simp [doFind]
  | succ fuel ih =>
    intro m trail z htg hz
    by_cases hm : m ∈ trail
    · simp [doFind, hm]
    · obtain ⟨d, hed, hrtg⟩ := Relation.TransGen.head'_iff.mp htg
      obtain ⟨cfg, hgm, hdmem, hdsome⟩ := hed
      simp only [doFind, if_neg hm, hgm]
      intro hok
      have hdok := doFindDeps_ok g (doFind g fuel) cfg.dependencies (trail ++ [m]) hok d hdmem hdsome
      by_cases hd : d ∈ trail ++ [m]
      · cases fuel with
        | zero => simp [doFind] at hdok
        | succ n => simp [doFind, hd] at hdok
      · rcases (Relation.reflTransGen_iff_eq_or_transGen.mp hrtg) with rfl | htg'
        · exact hd hz
        · exact ih d (trail ++ [m]) z htg' (List.mem_append_left [d] hz) hdok

/-! ## `findCircularReference`: absence of a trail is exactly acyclicity -/

theorem findCRLoop_eq_none_iff (g : Graph) :
    ∀ (ks : List String), findCRLoop g ks = none ↔
      ∀ k ∈ ks, ∀ t, doFind g (searchFuel g) k [] ≠ .cycleFound t := by
  intro ks
  induction ks with
  | nil => simp [findCRLoop]
  | cons k rest ih =>
    cases hdf : doFind g (searchFuel g) k [] with
    | ok =>
      simp only [findCRLoop, hdf]
      rw [ih]
      constructor
      · intro h k' hk' t
        rcases List.mem_cons.mp hk' with rfl | hmem
        · rw [hdf]; simp
        · exact h k' hmem t
      · intro h k' hk' t
        exact h k' (List.mem_cons_of_mem k hk') t
    | cycleFound t =>
      simp only [findCRLoop, hdf]
      constructor
      · intro h; simp at h
      · intro h
        exact absurd hdf (h k (List.mem_cons_self k rest) t)
    | outOfFuel =>
      simp only [findCRLoop, hdf]
      rw [ih]
      constructor
      · intro h k' hk' t
        rcases List.mem_cons.mp hk' with rfl | hmem
        · rw [hdf]; simp
        · exact h k' hmem t
      · intro h k' hk' t
        exact h k' (List.mem_cons_of_mem k hk') t

theorem findCRLoop_eq_some (g : Graph) :
    ∀ (ks : List String) (t : List String), findCRLoop g ks = some t →
      ∃ k ∈ ks, doFind g (searchFuel g) k [] = .cycleFound t := by
  intro ks
  induction ks with
  | nil => intro t h; simp [findCRLoop] at h
  | cons k rest ih =>
    intro t h
    cases hdf : doFind g (searchFuel g) k [] with
    | ok =>
      simp only [findCRLoop, hdf] at h
      obtain ⟨k', hk', hdf'⟩ := ih t h
      exact ⟨k', List.mem_cons_of_mem k hk', hdf'⟩
    | cycleFound t' =>
      simp only [findCRLoop, hdf] at h
      have : t' = t := by simpa using h
      subst this
      exact ⟨k, List.mem_cons_self k rest, hdf⟩
    | outOfFuel =>
      simp only [findCRLoop, hdf] at h
      obtain ⟨k', hk', hdf'⟩ := ih t h
      exact ⟨k', List.mem_cons_of_mem k hk', hdf'⟩

theorem transGen_mem_keys {g : Graph} {a : String} (h : Relation.TransGen (Edge g) a a) :
    a ∈ keys g := by
  obtain ⟨d, hed, _⟩ := Relation.TransGen.head'_iff.mp h
  obtain ⟨cfg, hgm, _, _⟩ := hed
  exact objGet_mem_keys hgm

theorem find_none_iff_acyclic (g : Graph) :
    findCircularReference g = none ↔ Acyclic g := by
  constructor
  · intro h a htg
    have hk : a ∈ keys g := transGen_mem_keys htg
    have hfuel : doFind g (searchFuel g) a [] ≠ .outOfFuel :=
      doFind_fuel g (searchFuel g) a [] List.nodup_nil (by simp) (by simp [searchFuel])
    have hok : doFind g (searchFuel g) a [] ≠ .ok :=
      doFind_reach_not_ok g (searchFuel g) a [] a htg (by simp)
    have hcf : ∀ t, doFind g (searchFuel g) a [] ≠ .cycleFound t :=
      (findCRLoop_eq_none_iff g (keys g)).mp h a hk
    cases hdf : doFind g (searchFuel g) a [] with
    | ok => exact hok hdf
    | cycleFound t => exact hcf t hdf
    | outOfFuel => exact hfuel hdf
  · intro hac
    apply (findCRLoop_eq_none_iff g (keys g)).mpr
    intro k _ t hcf
    obtain ⟨hchain, l, x, rfl, hx⟩ :=
      doFind_cycle_sound g (searchFuel g) k [] t (by simp) hcf
    exact hac x (chain'_concat_cycle hchain hx)

/-- Every returned trail consists of consecutive edges of the graph and ends
in a module that occurred earlier on the trail. -/
theorem find_some_sound {g : Graph} {t : List String}
    (h : findCircularReference g = some t) :
    List.Chain' (Edge g) t ∧ ∃ l x, t = l ++ [x] ∧ x ∈ l := by
  obtain ⟨k, _, hdf⟩ := findCRLoop_eq_some g (keys g) t h
  exact doFind_cycle_sound g (searchFuel g) k [] t (by simp) hdf

/-! ## Concrete graphs used by the claims -/

/-- The spec scenario `A:[]`, `B:["A"]`, `C:["B"]`. -/
def gABC : Graph :=
  [("A", ⟨[], [], 0, []⟩), ("B", ⟨["A"], [], 0, []⟩), ("C", ⟨["B"], [], 0, []⟩)]

/-- The spec scenario `A:["B"]`, `B:["A"]`. -/
def gAB : Graph :=
  [("A", ⟨["B"], [], 0, []⟩), ("B", ⟨["A"], [], 0, []⟩)]

/-- `A:["B"]`, `B:["C"]`, `C:["B"]`: a cycle not passing through the first
DFS root. -/
def gBC : Graph :=
  [("A", ⟨["B"], [], 0, []⟩), ("B", ⟨["C"], [], 0, []⟩), ("C", ⟨["B"], [], 0, []⟩)]

/-! ## Claim C3 — `findCircularReference` and acyclicity -/

/-- C3 counterexample: on `gBC` the DFS starts at `A`, walks `A → B → C` and
revisits `B`, so the returned trail is `["A","B","C","B"]`, whose first and
last elements differ — the trail is a walk leading into a cycle, not a
closed walk. -/
theorem claim_C3_counterexample :
    findCircularReference gBC = some ["A", "B", "C", "B"] ∧
    (["A", "B", "C", "B"] : List String).head? ≠
      (["A", "B", "C", "B"] : List String).getLast? := by
  constructor
  · rfl
  · decide

/-- C3 amended: `findCircularReference` returns `none` exactly on acyclic
graphs; a returned trail, read as consecutive pairs, is a walk of real edges
of the graph, and its last element occurred earlier on the trail (the suffix
from that occurrence is a closed walk) — but the trail may carry a simple
lead-in path, so its first and last elements need not be equal. -/
theorem claim_C3_amended (g : Graph) :
    (findCircularReference g = none ↔ Acyclic g) ∧
    ∀ t, findCircularReference g = some t →
      List.Chain' (Edge g) t ∧ ∃ l x, t = l ++ [x] ∧ x ∈ l :=
  ⟨find_none_iff_acyclic g, fun _ h => find_some_sound h⟩

/-- C3 witness: the amended theorem applied to the acyclic `gABC` and to
`gBC` with its concrete trail. -/
theorem claim_C3_witness :
    Acyclic gABC ∧
    (List.Chain' (Edge gBC) ["A", "B", "C", "B"] ∧
      ∃ l x, (["A", "B", "C", "B"] : List String) = l ++ [x] ∧ x ∈ l) :=
  ⟨(claim_C3_amended gABC).1.mp rfl, (claim_C3_amended gBC).2 ["A", "B", "C", "B"] rfl⟩

/-! ## Claim C9 — termination of the cycle search -/

/-- Whether the DFS finished (returned or threw `CRef`) rather than running
out of fuel. -/
def FindRes.completed : FindRes → Bool
  | .outOfFuel => false
  | _ => true

/-- C9: on every finite graph — cyclic or not, with or without dangling
dependency names — the DFS launched by `findCircularReference` from any
module completes within fuel `searchFuel g = (keys g).length + 1`: the
trail-membership check keeps every trail a duplicate-free list of keys, so
the recursion depth never exceeds the number of modules. -/
theorem claim_C9 (g : Graph) (m : String) :
    (doFind g (searchFuel g) m []).completed = true := by
  have h := doFind_fuel g (searchFuel g) m [] List.nodup_nil (by simp) (by simp [searchFuel])
  cases hdf : doFind g (searchFuel g) m [] with
  | ok => rfl
  | cycleFound t => rfl
  | outOfFuel => exact absurd hdf h

/-! ## Claim C4 — resolving a cyclic graph fails fast -/

/-- C4: on every graph containing a cycle, `resolveDependencies` throws the
fatal "Can not build dependency tree" error for every root module, rather
than returning a list (the cycle check runs before any resolution). -/
theorem claim_C4 (g : Graph) (hcyc : ¬ Acyclic g) (M : String) :
    resolveDependencies M g = .error circularErr := by
  unfold resolveDependencies
  cases hf : findCircularReference g with
  | some t => rfl
  | none => exact absurd ((find_none_iff_acyclic g).mp hf) hcyc

/-- C4 witness: the theorem at the concrete cyclic graph `gAB`. -/
theorem claim_C4_witness : resolveDependencies "A" gAB = .error circularErr := by
  apply claim_C4 gAB ?_ "A"
  intro hac
  have e₁ : Edge gAB "A" "B" := ⟨⟨["B"], [], 0, []⟩, by decide, by decide, by decide⟩
  have e₂ : Edge gAB "B" "A" := ⟨⟨["A"], [], 0, []⟩, by decide, by decide, by decide⟩
  exact hac "A" (Relation.TransGen.head e₁ (Relation.TransGen.single e₂))

/-! ## `dropDuplicates` keeps first occurrences -/

theorem dropDupSeen_mem (x : String) :
    ∀ (l seen : List String), x ∈ dropDupSeen seen l ↔ x ∈ l ∧ x ∉ seen := by
  intro l
  induction l with
  | nil => intro seen; simp [dropDupSeen]
  | cons a rest ih =>
    intro seen
    by_cases ha : a ∈ seen
    · rw [dropDupSeen, if_pos ha, ih]
      constructor
      · rintro ⟨h1, h2⟩; exact ⟨List.mem_cons_of_mem a h1, h2⟩
      · rintro ⟨h1, h2⟩
        rcases List.mem_cons.mp h1 with rfl | h1
        · exact absurd ha h2
        · exact ⟨h1, h2⟩
    · rw [dropDupSeen, if_neg ha]
      by_cases hx : x = a
      · subst hx
        simp [ha]
      · constructor
        · intro h
          rcases List.mem_cons.mp h with rfl | h
          · exact absurd rfl hx
          · have := (ih (a :: seen)).mp h
            refine ⟨List.mem_cons_of_mem a this.1, fun hs => this.2 (List.mem_cons_of_mem a hs)⟩
        · rintro ⟨h1, h2⟩
          rcases List.mem_cons.mp h1 with rfl | h1
          · exact absurd rfl hx
          · refine List.mem_cons_of_mem a ((ih (a :: seen)).mpr ⟨h1, ?_⟩)
            intro hs
            rcases List.mem_cons.mp hs with rfl | hs
            · exact hx rfl
            · exact h2 hs

theorem dropDupSeen_nodup : ∀ (l seen : List String), (dropDupSeen seen l).Nodup := by
  intro l
  induction l with
  | nil => intro seen; simp [dropDupSeen]
  | cons a rest ih =>
    intro seen
    by_cases ha : a ∈ seen
    · rw [dropDupSeen, if_pos ha]; exact ih seen
    · rw [dropDupSeen, if_neg ha]
      refine List.Nodup.cons ?_ (ih (a :: seen))
      intro hmem
      exact ((dropDupSeen_mem a rest (a :: seen)).mp hmem).2 (List.mem_cons_self a seen)

theorem dropDupSeen_concat (a : String) :
    ∀ (l seen : List String), a ∉ l → a ∉ seen →
      dropDupSeen seen (l ++ [a]) = dropDupSeen seen l ++ [a] := by
  intro l
  induction l with
  | nil => intro seen _ ha; simp [dropDupSeen, ha]
  | cons b rest ih =>
    intro seen hal ha
    have hab : a ≠ b := fun h => hal (h ▸ List.mem_cons_self b rest)
    have harest : a ∉ rest := fun h => hal (List.mem_cons_of_mem b h)
    by_cases hb : b ∈ seen
    · rw [List.cons_append, dropDupSeen, if_pos hb, dropDupSeen, if_pos hb]
      exact ih seen harest ha
    · rw [List.cons_append, dropDupSeen, if_neg hb, dropDupSeen, if_neg hb, List.cons_append]
      rw [ih (b :: seen) harest ?_]
      intro h
      rcases List.mem_cons.mp h with h | h
      · exact hab h
      · exact ha h

theorem dropDupSeen_split :
    ∀ (l seen u' v' : List String) (n : String),
      dropDupSeen seen l = u' ++ n :: v' →
      ∃ u v, l = u ++ n :: v ∧ n ∉ u ∧ n ∉ seen ∧ ∀ d ∈ u, d ∈ u' ∨ d ∈ seen := by
  intro l
  induction l with
  | nil => intro seen u' v' n h; simp [dropDupSeen] at h
  | cons a rest ih =>
    intro seen u' v' n h
    by_cases ha : a ∈ seen
    · rw [dropDupSeen, if_pos ha] at h
      obtain ⟨u, v, rfl, hnu, hns, hu⟩ := ih seen u' v' n h
      refine ⟨a :: u, v, rfl, ?_, hns, ?_⟩
      · intro hmem
        rcases List.mem_cons.mp hmem with rfl | hmem
        · exact hns ha
        · exact hnu hmem
      · intro d hd
        rcases List.mem_cons.mp hd with rfl | hd
        · exact Or.inr ha
        · exact hu d hd
    · rw [dropDupSeen, if_neg ha] at h
      cases u' with
      | nil =>
        have hn : a = n := by simpa using congrArg List.head? h
        subst hn
        exact ⟨[], rest, rfl, by simp, ha, by simp⟩
      | cons b u'' =>
        have hb : a = b := by simpa using congrArg List.head? h
        subst hb
        have h' : dropDupSeen (a :: seen) rest = u'' ++ n :: v' := by
          simpa using congrArg List.tail h
        obtain ⟨u, v, rfl, hnu, hns, hu⟩ := ih (a :: seen) u'' v' n h'
        have hna : n ≠ a := by
          intro hna
          exact hns (hna ▸ List.mem_cons_self a seen)
        refine ⟨a :: u, v, rfl, ?_, fun hs => hns (List.mem_cons_of_mem a hs), ?_⟩
        · intro hmem
          rcases List.mem_cons.mp hmem with rfl | hmem
          · exact hna rfl
          · exact hnu hmem
        · intro d hd
          rcases List.mem_cons.mp hd with h | hd
          · exact Or.inl (by simp [h])
          · rcases hu d hd with h | h
            · exact Or.inl (List.mem_cons_of_mem a h)
            · rcases List.mem_cons.mp h with h | h
              · exact Or.inl (by simp [h])
              · exact Or.inr h

theorem dropDuplicates_mem (x : String) (l : List String) :
    x ∈ dropDuplicates l ↔ x ∈ l := by
  rw [dropDuplicates, dropDupSeen_mem]
  simp

theorem dropDuplicates_nodup (l : List String) : (dropDuplicates l).Nodup :=
  dropDupSeen_nodup l []

/-! ## Properties of `doResolve` -/

theorem doResolveGo_mem (g : Graph) (next : List String → Option (List String)) :
    ∀ (ds raw : List String), doResolveGo g next ds = some raw →
      ∀ d ∈ ds, (objGet g d).isSome → d ∈ raw := by
  intro ds
  induction ds with
  | nil => intro raw _ d hd; simp at hd
  | cons dep rest ih =>
    intro raw h d hd hsome
    cases hg : objGet g dep with
    | none =>
      simp only [doResolveGo, hg] at h
      rcases List.mem_cons.mp hd with h' | hd'
      · exact absurd (h' ▸ hsome) (by simp [hg])
      · exact ih raw h d hd' hsome
    | some m =>
      simp only [doResolveGo, hg] at h
      cases hsub : next m.dependencies with
      | none => rw [hsub] at h; simp at h
      | some sub =>
        cases htail : doResolveGo g next rest with
        | none => rw [hsub, htail] at h; simp at h
        | some tail =>
          rw [hsub, htail] at h
          have hraw : sub ++ dep :: tail = raw := by simpa using h
          subst hraw
          rcases List.mem_cons.mp hd with h' | hd'
          · subst h'
            exact List.mem_append_right sub (List.mem_cons_self d tail)
          · exact List.mem_append_right sub
              (List.mem_cons_of_mem dep (ih tail htail d hd' hsome))

theorem doResolve_mem {g : Graph} {fuel : Nat} {ds r : List String}
    (h : doResolve g fuel ds = some r) :
    ∀ d ∈ ds, (objGet g d).isSome → d ∈ r := by
  cases fuel with
  | zero => simp [doResolve] at h
  | succ fuel =>
    simp only [doResolve] at h
    obtain ⟨raw, hgo, hded⟩ := Option.map_eq_some'.mp h
    intro d hd hs
    rw [← hded, dropDuplicates_mem]
    exact doResolveGo_mem g (doResolve g fuel) ds raw hgo d hd hs

theorem doResolve_reach (g : Graph) :
    ∀ (fuel : Nat) (ds r : List String), doResolve g fuel ds = some r →
      ∀ x ∈ r, ∃ d ∈ ds, (objGet g d).isSome ∧ Relation.ReflTransGen (Edge g) d x := by
  intro fuel
  induction fuel with
  | zero => intro ds r h; simp [doResolve] at h
  | succ fuel ih =>
    have hgo : ∀ (ds raw : List String), doResolveGo g (doResolve g fuel) ds = some raw →
        ∀ x ∈ raw, ∃ d ∈ ds, (objGet g d).isSome ∧ Relation.ReflTransGen (Edge g) d x := by
      intro ds
      induction ds with
      | nil =>
        intro raw h x hx
        simp only [doResolveGo, Option.some.injEq] at h
        subst h
        simp at hx
      | cons dep rest ihds =>
        intro raw h x hx
        cases hg : objGet g dep with
        | none =>
          simp only [doResolveGo, hg] at h
          obtain ⟨d, hd, hds, hrtg⟩ := ihds raw h x hx
          exact ⟨d, List.mem_cons_of_mem dep hd, hds, hrtg⟩
        | some m =>
          simp only [doResolveGo, hg] at h
          cases hsub : doResolve g fuel m.dependencies with
          | none => rw [hsub] at h; simp at h
          | some sub =>
            cases htail : doResolveGo g (doResolve g fuel) rest with
            | none => rw [hsub, htail] at h; simp at h
            | some tail =>
              rw [hsub, htail] at h
              have hraw : sub ++ dep :: tail = raw := by simpa using h
              subst hraw
              have hdepsome : (objGet g dep).isSome := by simp [hg]
              rcases List.mem_append.mp hx with hxs | hxt
              · obtain ⟨d', hd', hd'some, hrtg⟩ := ih m.dependencies sub hsub x hxs
                have hedge : Edge g dep d' := ⟨m, hg, hd', hd'some⟩
                exact ⟨dep, List.mem_cons_self dep rest, hdepsome,
                  Relation.ReflTransGen.head hedge hrtg⟩
              · rcases List.mem_cons.mp hxt with hxd | hxt
                · subst hxd
                  exact ⟨x, List.mem_cons_self x rest, hdepsome, Relation.ReflTransGen.refl⟩
                · obtain ⟨d, hd, hds, hrtg⟩ := ihds tail htail x hxt
                  exact ⟨d, List.mem_cons_of_mem dep hd, hds, hrtg⟩
    intro ds r h x hx
    simp only [doResolve] at h
    obtain ⟨raw, hgoeq, hded⟩ := Option.map_eq_some'.mp h
    rw [← hded, dropDuplicates_mem] at hx
    exact hgo ds raw hgoeq x hx

/-! ## The output of `doResolve` is topologically sorted -/

/-- Every element's graph-present dependencies occur strictly earlier in the
list. -/
def TopoSorted (g : Graph) (l : List String) : Prop :=
  ∀ u n v, l = u ++ n :: v → ∀ cfg, objGet g n = some cfg →
    ∀ d ∈ cfg.dependencies, (objGet g d).isSome → d ∈ u

theorem topoSorted_nil (g : Graph) : TopoSorted g [] := by
  intro u n v h
  exact absurd h (by simp)

theorem topoSorted_append (g : Graph) (sub tail : List String) (dep : String)
    (hsub : TopoSorted g sub) (htail : TopoSorted g tail)
    (hblock : ∀ cfg, objGet g dep = some cfg →
      ∀ d ∈ cfg.dependencies, (objGet g d).isSome → d ∈ sub) :
    TopoSorted g (sub ++ dep :: tail) := by
  intro u n v heq cfg hcfg d hd hds
  rcases List.append_eq_append_iff.mp heq with ⟨a', hu, hv⟩ | ⟨c', hsubeq, hveq⟩
  · cases a' with
    | nil =>
      have hnd : dep = n := by simpa using congrArg List.head? hv
      subst hnd
      have hu' : u = sub := by simpa using hu
      subst hu'
      exact hblock cfg hcfg d hd hds
    | cons b a'' =>
      have hbd : dep = b := by simpa using congrArg List.head? hv
      subst hbd
      have htl : tail = a'' ++ n :: v := by simpa using congrArg List.tail hv
      have hdu := htail a'' n v htl cfg hcfg d hd hds
      rw [hu]
      exact List.mem_append_right sub (List.mem_cons_of_mem dep hdu)
  · cases c' with
    | nil =>
      have hnd : n = dep := by simpa using congrArg List.head? hveq
      subst hnd
      have hu' : sub = u := by simpa using hsubeq
      subst hu'
      exact hblock cfg hcfg d hd hds
    | cons b c'' =>
      have hbn : n = b := by simpa using congrArg List.head? hveq
      subst hbn
      have hsub' : sub = u ++ n :: c'' := by rw [hsubeq]
      have hdu := hsub u n c'' hsub' cfg hcfg d hd hds
      exact hdu

theorem topoSorted_dedup (g : Graph) (raw : List String) (h : TopoSorted g raw) :
    TopoSorted g (dropDuplicates raw) := by
  intro u' n v' heq cfg hcfg d hd hds
  obtain ⟨u, v, hraw, _, _, hu⟩ := dropDupSeen_split raw [] u' v' n heq
  have hdu := h u n v hraw cfg hcfg d hd hds
  rcases hu d hdu with h' | h'
  · exact h'
  · simp at h'

theorem doResolve_topo (g : Graph) :
    ∀ (fuel : Nat) (ds r : List String), doResolve g fuel ds = some r → TopoSorted g r := by
  intro fuel
  induction fuel with
  | zero => intro ds r h; simp [doResolve] at h
  | succ fuel ih =>
    have hgo : ∀ (ds raw : List String), doResolveGo g (doResolve g fuel) ds = some raw →
        TopoSorted g raw := by
      intro ds
      induction ds with
      | nil =>
        intro raw h
        simp only [doResolveGo, Option.some.injEq] at h
        subst h
        exact topoSorted_nil g
      | cons dep rest ihds =>
        intro raw h
        cases hg : objGet g dep with
        | none =>
          simp only [doResolveGo, hg] at h
          exact ihds raw h
        | some m =>
          simp only [doResolveGo, hg] at h
          cases hsub : doResolve g fuel m.dependencies with
          | none => rw [hsub] at h; simp at h
          | some sub =>
            cases htail : doResolveGo g (doResolve g fuel) rest with
            | none => rw [hsub, htail] at h; simp at h
            | some tail =>
              rw [hsub, htail] at h
              have hraw : sub ++ dep :: tail = raw := by simpa using h
              subst hraw
              apply topoSorted_append g sub tail dep (ih m.dependencies sub hsub)
                (ihds tail htail)
              intro cfg hcfg d hd hds
              have hm : m = cfg := by rw [hg] at hcfg; simpa using hcfg
              subst hm
              exact doResolve_mem hsub d hd hds
    intro ds r h
    simp only [doResolve] at h
    obtain ⟨raw, hgoeq, hded⟩ := Option.map_eq_some'.mp h
    rw [← hded]
    exact topoSorted_dedup g raw (hgo ds raw hgoeq)

/-! ## On acyclic graphs the resolver never exhausts its fuel -/

theorem doResolve_fuel (g : Graph) (hac : Acyclic g) :
    ∀ (fuel : Nat) (trail ds : List String), trail.Nodup →
      (∀ x ∈ trail, x ∈ keys g) → List.Chain' (Edge g) trail →
      (∀ d ∈ ds, (objGet g d).isSome → ∀ x ∈ trail.getLast?, Edge g x d) →
      (keys g).length + 1 ≤ fuel + trail.length →
      doResolve g fuel ds ≠ none := by
  intro fuel
  induction fuel with
  | zero =>
    intro trail ds hnd hsub _ _ hb
    exfalso
    have := nodup_subset_length hnd hsub
    omega
  | succ fuel ih =>
    intro trail ds hnd hsub hch hedge hb
    have hgo : ∀ ds', (∀ d ∈ ds', (objGet g d).isSome → ∀ x ∈ trail.getLast?, Edge g x d) →
        doResolveGo g (doResolve g fuel) ds' ≠ none := by
      intro ds'
      induction ds' with
      | nil => intro _; simp [doResolveGo]
      | cons dep rest ihds =>
        intro hedge'
        cases hg : objGet g dep with
        | none =>
          simp only [doResolveGo, hg]
          exact ihds (fun d hd => hedge' d (List.mem_cons_of_mem dep hd))
        | some m =>
          simp only [doResolveGo, hg]
          have hdsome : (objGet g dep).isSome := by simp [hg]
          have hch' : List.Chain' (Edge g) (trail ++ [dep]) := by
            rw [List.chain'_append]
            refine ⟨hch, List.chain'_singleton dep, ?_⟩
            intro x hx y hy
            have hyd : dep = y := by simpa using hy
            subst hyd
            exact hedge' dep (List.mem_cons_self dep rest) hdsome x hx
          have hdep_ni : dep ∉ trail := fun hmem => hac dep (chain'_concat_cycle hch' hmem)
          have hsubres : doResolve g fuel m.dependencies ≠ none := by
            apply ih (trail ++ [dep]) m.dependencies
            · simp only [List.nodup_append, List.nodup_singleton]
              exact ⟨hnd, trivial, by simpa using hdep_ni⟩
            · intro x hx
              rcases List.mem_append.mp hx with h | h
              · exact hsub x h
              · have : x = dep := by simpa using h
                subst this
                exact objGet_mem_keys hg
            · exact hch'
            · intro d hd hds x hx
              have hxm : dep = x := by
                rw [List.getLast?_concat] at hx
                simpa using hx
              subst hxm
              exact ⟨m, hg, hd, hds⟩
            · simp only [List.length_append, List.length_singleton]
              omega
          have htl : doResolveGo g (doResolve g fuel) rest ≠ none :=
            ihds (fun d hd => hedge' d (List.mem_cons_of_mem dep hd))
          cases hres : doResolve g fuel m.dependencies with
          | none => exact absurd hres hsubres
          | some sub =>
            cases hrest : doResolveGo g (doResolve g fuel) rest with
            | none => exact absurd hrest htl
            | some tail => simp
    simp only [doResolve]
    intro hmap
    exact hgo ds hedge (Option.map_eq_none'.mp hmap)

/-- Inverting a successful `resolveDependencies`: the graph is acyclic and
the result is the (sufficient-fuel) `doResolve` run on `[moduleName]`. -/
theorem resolveDependencies_ok {g : Graph} {M : String} {r : List String}
    (h : resolveDependencies M g = .ok r) :
    Acyclic g ∧ doResolve g (searchFuel g) [M] = some r := by
  unfold resolveDependencies at h
  cases hf : findCircularReference g with
  | some t => rw [hf] at h; simp at h
  | none =>
    have hac := (find_none_iff_acyclic g).mp hf
    rw [hf] at h
    cases hres : doResolve g (searchFuel g) [M] with
    | some r' =>
      rw [hres] at h
      have : r' = r := by simpa using h
      subst this
      exact ⟨hac, rfl⟩
    | none =>
      exfalso
      refine doResolve_fuel g hac (searchFuel g) [] [M] List.nodup_nil (by simp)
        List.chain'_nil ?_ (by simp [searchFuel]) hres
      intro d _ _ x hx
      simp at hx

/-! ## Claim C1 — duplicates and the root in the resolver output -/

/-- C1 counterexample: on the scenario graph `A:[]`, `B:["A"]`, `C:["B"]`
the resolver returns `["A","B","C"]`, not `["A","B"]` — `doResolve` is
seeded with `[moduleName]` itself, so the root module is part of the
result. -/
theorem claim_C1_counterexample :
    resolveDependencies "C" gABC = .ok ["A", "B", "C"] ∧
    "C" ∈ (["A", "B", "C"] : List String) := by
  exact ⟨rfl, by decide⟩

/-- C1 amended: on every graph the resolver accepts (acyclic), the result
has no duplicate names; when the root module exists in the graph it does
appear in the result — exactly once, as the final element (never earlier).
In the scenario `A:[]`, `B:["A"]`, `C:["B"]` the result is `["A","B","C"]`. -/
theorem claim_C1_amended :
    (∀ (g : Graph) (M : String) (r : List String), resolveDependencies M g = .ok r →
      r.Nodup ∧ ((objGet g M).isSome → r.getLast? = some M ∧ M ∉ r.dropLast)) ∧
    resolveDependencies "C" gABC = .ok ["A", "B", "C"] := by
  constructor
  · intro g M r h
    obtain ⟨hac, hres⟩ := resolveDependencies_ok h
    rw [searchFuel] at hres
    simp only [doResolve] at hres
    obtain ⟨raw, hgo, hded⟩ := Option.map_eq_some'.mp hres
    constructor
    · rw [← hded]
      exact dropDuplicates_nodup raw
    · intro hM
      obtain ⟨cfg, hcfg⟩ := Option.isSome_iff_exists.mp hM
      simp only [doResolveGo, hcfg] at hgo
      cases hsub : doResolve g (keys g).length cfg.dependencies with
      | none => rw [hsub] at hgo; simp at hgo
      | some sub =>
        rw [hsub] at hgo
        have hraw : sub ++ [M] = raw := by simpa using hgo
        subst hraw
        have hMsub : M ∉ sub := by
          intro hmem
          obtain ⟨d, hd, hds, hrtg⟩ :=
            doResolve_reach g (keys g).length cfg.dependencies sub hsub M hmem
          have hedge : Edge g M d := ⟨cfg, hcfg, hd, hds⟩
          exact hac M (Relation.TransGen.head'_iff.mpr ⟨d, hedge, hrtg⟩)
        rw [← hded, dropDuplicates, dropDupSeen_concat M sub [] hMsub (by simp)]
        constructor
        · exact List.getLast?_concat _
        · rw [List.dropLast_concat]
          intro hmem
          exact hMsub ((dropDupSeen_mem M sub []).mp hmem).1
  · rfl

/-- C1 witness: the amended theorem at the scenario graph. -/
theorem claim_C1_witness :
    (["A", "B", "C"] : List String).Nodup ∧
    ((["A", "B", "C"] : List String).getLast? = some "C" ∧
      "C" ∉ (["A", "B", "C"] : List String).dropLast) := by
  have h := claim_C1_amended.1 gABC "C" ["A", "B", "C"] rfl
  exact ⟨h.1, h.2 (by decide)⟩

/-! ## Claim C2 — the resolver output is a topological order -/

/-- C2: whenever `resolveDependencies` succeeds (the graph is acyclic),
every module name `N` in the result has each of its graph-present
dependencies at a strictly earlier position of the result. -/
theorem claim_C2 (g : Graph) (M : String) (r : List String)
    (h : resolveDependencies M g = .ok r) (N : String) (cfg : ModuleConfig) (d : String)
    (hN : N ∈ r) (hcfg : objGet g N = some cfg) (hd : d ∈ cfg.dependencies)
    (hds : (objGet g d).isSome) :
    ∃ (i j : Nat), i < j ∧ r[i]? = some d ∧ r[j]? = some N := by
  obtain ⟨hac, hres⟩ := resolveDependencies_ok h
  have htopo := doResolve_topo g (searchFuel g) [M] r hres
  obtain ⟨u, v, rfl⟩ := List.append_of_mem hN
  have hdu := htopo u N v rfl cfg hcfg d hd hds
  obtain ⟨n, hn, hgn⟩ := List.mem_iff_getElem.mp hdu
  refine ⟨n, u.length, hn, ?_, ?_⟩
  · rw [List.getElem?_append_left hn, List.getElem?_eq_getElem hn, hgn]
  · rw [List.getElem?_append_right (Nat.le_refl u.length)]
    simp

/-- C2 witness: on the scenario graph, dependency `A` of `B` precedes `B`
in `resolveDependencies("C") = ["A","B","C"]`. -/
theorem claim_C2_witness :
    ∃ (i j : Nat), i < j ∧ (["A", "B", "C"] : List String)[i]? = some "A" ∧
      (["A", "B", "C"] : List String)[j]? = some "B" :=
  claim_C2 gABC "C" ["A", "B", "C"] rfl "B" ⟨["A"], [], 0, []⟩ "A"
    (by decide) rfl (by decide) (by decide)

/-! ## Claim C8 — characterization of `validateInjects` -/

theorem injectErrors_mem (idx : Obj String) (mn : String) (deps : List String) (pn : String) :
    ∀ (injs : List String) (e : String × String × String × String),
      e ∈ injectErrors idx mn deps pn injs ↔
        ∃ i ∈ injs, ∃ m2, objGet idx i = some m2 ∧ m2 ≠ "" ∧ m2 ≠ mn ∧ m2 ∉ deps ∧
          e = (mn, pn, i, m2) := by
  intro injs
  induction injs with
  | nil => intro e; simp [injectErrors]
  | cons i rest ih =>
    intro e
    cases hgi : objGet idx i with
    | none =>
      simp only [injectErrors, hgi]
      rw [ih]
      constructor
      · rintro ⟨i', hi', hrest⟩
        exact ⟨i', List.mem_cons_of_mem i hi', hrest⟩
      · rintro ⟨i', hi', m2, hg', hrest⟩
        rcases List.mem_cons.mp hi' with h' | h'
        · rw [h'] at hg'
          rw [hgi] at hg'
          simp at hg'
        · exact ⟨i', h', m2, hg', hrest⟩
    | some md =>
      by_cases hc : md ≠ "" ∧ md ≠ mn ∧ md ∉ deps
      · simp only [injectErrors, hgi, if_pos hc]
        constructor
        · intro hmem
          rcases List.mem_cons.mp hmem with h' | h'
          · exact ⟨i, List.mem_cons_self i rest, md, hgi, hc.1, hc.2.1, hc.2.2, h'⟩
          · obtain ⟨i', hi', m2, hg', h1, h2, h3, h4⟩ := (ih e).mp h'
            exact ⟨i', List.mem_cons_of_mem i hi', m2, hg', h1, h2, h3, h4⟩
        · rintro ⟨i', hi', m2, hg', h1, h2, h3, h4⟩
          rcases List.mem_cons.mp hi' with h' | h'
          · subst h'
            rw [hgi] at hg'
            have hm2 : md = m2 := by simpa using hg'
            subst hm2
            rw [h4]
            exact List.mem_cons_self _ _
          · exact List.mem_cons_of_mem _ ((ih e).mpr ⟨i', h', m2, hg', h1, h2, h3, h4⟩)
      · simp only [injectErrors, hgi, if_neg hc]
        rw [ih]
        constructor
        · rintro ⟨i', hi', hrest⟩
          exact ⟨i', List.mem_cons_of_mem i hi', hrest⟩
        · rintro ⟨i', hi', m2, hg', h1, h2, h3, h4⟩
          rcases List.mem_cons.mp hi' with h' | h'
          · subst h'
            rw [hgi] at hg'
            have hm2 : md = m2 := by simpa using hg'
            subst hm2
            exact absurd ⟨h1, h2, h3⟩ hc
          · exact ⟨i', h', m2, hg', h1, h2, h3, h4⟩

theorem providerLoop_mem (idx : Obj String) (mn : String) (deps : List String) :
    ∀ (ps : List ProviderConfig) (e : String × String × String × String),
      e ∈ providerLoop idx mn deps ps ↔
        ∃ p ∈ ps, e ∈ injectErrors idx mn deps p.name p.injects := by
  intro ps
  induction ps with
  | nil => intro e; simp [providerLoop]
  | cons p rest ih =>
    intro e
    simp only [providerLoop, List.mem_append]
    rw [ih]
    constructor
    · rintro (h | ⟨p', hp', hmem⟩)
      · exact ⟨p, List.mem_cons_self p rest, h⟩
      · exact ⟨p', List.mem_cons_of_mem p hp', hmem⟩
    · rintro ⟨p', hp', hmem⟩
      rcases List.mem_cons.mp hp' with h' | h'
      · subst h'
        exact Or.inl hmem
      · exact Or.inr ⟨p', h', hmem⟩

theorem validateInjectsCore_mem (g : Graph) (idx : Obj String) :
    ∀ (ks : List String) (e : String × String × String × String),
      e ∈ validateInjectsCore g idx ks ↔
        ∃ mn ∈ ks, ∃ m, objGet g mn = some m ∧
          e ∈ providerLoop idx mn m.dependencies m.providers := by
  intro ks
  induction ks with
  | nil => intro e; simp [validateInjectsCore]
  | cons mn rest ih =>
    intro e
    simp only [validateInjectsCore, List.mem_append]
    rw [ih]
    constructor
    · rintro (h | ⟨mn', hmn', m, hm, hmem⟩)
      · cases hg : objGet g mn with
        | none => rw [hg] at h; simp at h
        | some m => rw [hg] at h; exact ⟨mn, List.mem_cons_self mn rest, m, hg, h⟩
      · exact ⟨mn', List.mem_cons_of_mem mn hmn', m, hm, hmem⟩
    · rintro ⟨mn', hmn', m, hm, hmem⟩
      rcases List.mem_cons.mp hmn' with h' | h'
      · subst h'
        rw [hm]
        exact Or.inl hmem
      · exact Or.inr ⟨mn', h', m, hm, hmem⟩

/-- The graph of the C8 counterexample: a module whose name is the empty
string owns provider `q`; module `X` has provider `p` injecting `q`, and
`X`'s dependency list does not contain the empty string. -/
def gEmptyOwner : Graph :=
  [("", ⟨[], [], 0, [⟨"q", []⟩]⟩), ("X", ⟨[], [], 0, [⟨"p", ["q"]⟩]⟩)]

/-- C8 counterexample: in `gEmptyOwner`, the injected name `q` is a known
provider owned (per the index) by the module named `""`, which differs from
`X` and is not among `X`'s (empty) dependency list — the claim demands a
diagnostic — yet `validateInjects` emits none: the JS guard
`moduleDependency && …` treats the looked-up owner `""` as falsy. -/
theorem claim_C8_counterexample :
    validateInjects gEmptyOwner = [] ∧
    objGet (moduleByProvider gEmptyOwner) "q" = some "" ∧
    objGet gEmptyOwner "X" = some ⟨[], [], 0, [⟨"p", ["q"]⟩]⟩ :=
  ⟨rfl, rfl, rfl⟩

/-- The scenario graph of C8: module `X` has provider `p` injecting `q`;
`q` is a provider owned by module `Y`; `X` does not depend on `Y`. -/
def gXY : Graph :=
  [("X", ⟨[], [], 0, [⟨"p", ["q"]⟩]⟩), ("Y", ⟨[], [], 0, [⟨"q", []⟩]⟩)]

/-- C8 amended: a diagnostic tuple (module, provider, injected name, owner)
is produced exactly when the injected name is in the provider-to-module
index (last writer wins) with an owner that is nonempty (the JS truthiness
guard — this is the amendment), different from the injecting module, and
not on the injecting module's dependency list; unknown injected names are
silently ignored.  On the scenario graph the validator emits exactly one
diagnostic, naming `X`, `p`, `q` and `Y`. -/
theorem claim_C8_amended :
    (∀ (g : Graph) (mn pn i m2 : String),
      (mn, pn, i, m2) ∈ validateInjectsCore g (moduleByProvider g) (keys g) ↔
        ∃ cfg, objGet g mn = some cfg ∧
          (∃ p ∈ cfg.providers, p.name = pn ∧ i ∈ p.injects) ∧
          objGet (moduleByProvider g) i = some m2 ∧
          m2 ≠ "" ∧ m2 ≠ mn ∧ m2 ∉ cfg.dependencies) ∧
    validateInjects gXY = [errString "X" "p" "q" "Y"] := by
  constructor
  · intro g mn pn i m2
    rw [validateInjectsCore_mem]
    constructor
    · rintro ⟨mn', hmn', m, hm, hmem⟩
      rw [providerLoop_mem] at hmem
      obtain ⟨p, hp, hinj⟩ := hmem
      rw [injectErrors_mem] at hinj
      obtain ⟨i', hi', m2', hg', h1, h2, h3, h4⟩ := hinj
      have he : mn' = mn ∧ p.name = pn ∧ i' = i ∧ m2' = m2 := by
        have := h4.symm
        simp only [Prod.mk.injEq] at this
        exact ⟨this.1, this.2.1, this.2.2.1, this.2.2.2⟩
      obtain ⟨rfl, hpn, rfl, rfl⟩ := he
      exact ⟨m, hm, ⟨p, hp, hpn, hi'⟩, hg', h1, h2, h3⟩
    · rintro ⟨cfg, hcfg, ⟨p, hp, hpn, hi⟩, hg', h1, h2, h3⟩
      refine ⟨mn, objGet_mem_keys hcfg, cfg, hcfg, ?_⟩
      rw [providerLoop_mem]
      refine ⟨p, hp, ?_⟩
      rw [injectErrors_mem]
      exact ⟨i, hi, m2, hg', h1, h2, h3, by rw [hpn]⟩
  · rfl

end AngularBundler
